import Mathlib

/-!
Verification of the dogelayer validator core against its specification.

The development shallowly embeds the Python sources:
* `src/dogelayer/core/pool/metrics/dogelayer_proxy.py`
  (`ProxyMetrics.get_share_value_fiat`, `get_metrics_timerange`),
* `src/dogelayer/validator/validator.py`
  (`evaluate_miner_share_value`, `restore_state_and_evaluate`,
   `calculate_weights_distribution`, `set_weights`,
   `_set_weights_with_commit_reveal`).

Python dicts are embedded as association lists (`List (String × _)`);
floats are embedded as exact rationals; Python exceptions (including
`ZeroDivisionError` on float division by zero) are embedded with
`Except`/status flags.
-/

namespace Dogelayer

/-- First key/value entry in an association list whose key equals `k`
(Python dict lookup; the lists we build never have duplicate keys). -/
def alistLookup {α : Type} (l : List (String × α)) (k : String) : Option α :=
  match l with
  | [] => none
  | (k', v) :: rest => if k' = k then some v else alistLookup rest k

/-- Python `d[k] = v`: replace the value at the first entry with key `k`,
or append a new entry when `k` is absent. -/
def alistInsert {α : Type} (l : List (String × α)) (k : String) (v : α) :
    List (String × α) :=
  match l with
  | [] => [(k, v)]
  | (k', v') :: rest =>
    if k' = k then (k', v) :: rest else (k', v') :: alistInsert rest k v

/-- Python `del d[k]` guarded by `if k in d` (removes every entry with key
`k`; the lists we build never have duplicate keys). -/
def alistErase {α : Type} (l : List (String × α)) (k : String) :
    List (String × α) :=
  l.filter (fun e => e.1 ≠ k)

/-- Worker record as reported by the pool snapshot
(`all_workers[worker_id]` in `get_metrics_timerange`). -/
structure WorkerData where
  hashrate : ℚ := 0
  shares : ℤ := 0
  share_value : ℚ := 0
  hash_rate_unit : String := "Gh/s"
  deriving DecidableEq, Repr

/-- `ProxyMetrics` dataclass from `dogelayer_proxy.py`. -/
structure ProxyMetrics where
  hotkey : String
  hashrate : ℚ := 0
  shares : ℤ := 0
  share_value : ℚ := 0
  hash_rate_unit : String := "Gh/s"
  deriving DecidableEq, Repr

/-- Python `worker_id.split(".")[0]`: the prefix before the first dot. -/
def splitHead (s : String) : String :=
  ⟨s.data.takeWhile (fun c => c ≠ '.')⟩

/-- Python `"." in worker_id`. -/
def containsDot (s : String) : Bool :=
  s.data.contains '.'

/-- The worker ids matched for one hotkey in `get_metrics_timerange`:
first the exact-match lookup (`if hotkey in all_workers`), then every
dotted worker id whose prefix before the first dot equals the hotkey,
in snapshot order. -/
def matchWorkerIds (allWorkers : List (String × WorkerData)) (hotkey : String) :
    List String :=
  (if (alistLookup allWorkers hotkey).isSome then [hotkey] else []) ++
    (allWorkers.map Prod.fst).filter
      (fun wid => containsDot wid && splitHead wid = hotkey)

/-- The two dictionaries built by the mapping phase of
`get_metrics_timerange`: `hotkeys_to_workers` and
`worker_ids_to_hotkey_idx`. -/
structure ReconState where
  hotkeysToWorkers : List (String × List String)
  workerIdsToHotkeyIdx : List (String × ℕ)
  deriving DecidableEq, Repr

/-- One iteration of the mapping loop of `get_metrics_timerange` for the
enumerated pair `(i, hotkey)`. -/
def reconStep (allWorkers : List (String × WorkerData)) (hotkeys : List String)
    (blockAtRegistration : List ℤ) (st : ReconState) (i : ℕ) (hotkey : String) :
    ReconState :=
  let workerIds := matchWorkerIds allWorkers hotkey
  if workerIds.length > 1 then
    { st with hotkeysToWorkers := alistInsert st.hotkeysToWorkers hotkey workerIds }
  else if workerIds.length = 1 then
    let workerId := workerIds.headD ""
    match alistLookup st.workerIdsToHotkeyIdx workerId with
    | some otherHotkeyIdx =>
      if blockAtRegistration.getD i 0 < blockAtRegistration.getD otherHotkeyIdx 0 then
        let otherHotkey := hotkeys.getD otherHotkeyIdx ""
        { hotkeysToWorkers :=
            alistInsert (alistErase st.hotkeysToWorkers otherHotkey) hotkey [workerId],
          workerIdsToHotkeyIdx := alistInsert st.workerIdsToHotkeyIdx workerId i }
      else st
    | none =>
      { hotkeysToWorkers := alistInsert st.hotkeysToWorkers hotkey [workerId],
        workerIdsToHotkeyIdx := alistInsert st.workerIdsToHotkeyIdx workerId i }
  else st

/-- The whole mapping phase of `get_metrics_timerange`
(`for i, hotkey in enumerate(hotkeys)` over both dictionaries). -/
def reconcile (allWorkers : List (String × WorkerData)) (hotkeys : List String)
    (blockAtRegistration : List ℤ) : ReconState :=
  hotkeys.enum.foldl
    (fun st p => reconStep allWorkers hotkeys blockAtRegistration st p.1 p.2)
    ⟨[], []⟩

/-- The aggregation loop body of `get_metrics_timerange` for one hotkey:
sum `share_value`, `hashrate`, `shares` over its resolved worker ids,
last-write-wins on the hash-rate unit, skipping absent worker data. -/
def aggregateWorkers (allWorkers : List (String × WorkerData))
    (workerIds : List String) : ℚ × ℚ × ℤ × String :=
  workerIds.foldl
    (fun acc workerId =>
      match alistLookup allWorkers workerId with
      | some w => (acc.1 + w.share_value, acc.2.1 + w.hashrate,
                   acc.2.2.1 + w.shares, w.hash_rate_unit)
      | none => acc)
    (0, 0, 0, "Gh/s")

/-- `get_metrics_timerange`: resolve the identity/worker map, then produce
one `ProxyMetrics` per hotkey (zero-valued when the hotkey is unmapped). -/
def getMetricsTimerange (allWorkers : List (String × WorkerData))
    (hotkeys : List String) (blockAtRegistration : List ℤ) :
    List ProxyMetrics :=
  let st := reconcile allWorkers hotkeys blockAtRegistration
  hotkeys.map fun hotkey =>
    match alistLookup st.hotkeysToWorkers hotkey with
    | none => { hotkey := hotkey }
    | some workerIds =>
      let agg := aggregateWorkers allWorkers workerIds
      { hotkey := hotkey, share_value := agg.1, hashrate := agg.2.1,
        shares := agg.2.2.1, hash_rate_unit := agg.2.2.2 }

/-- The resolved worker set of an identity after reconciliation
(empty when the identity is unmapped). -/
def resolvedWorkers (allWorkers : List (String × WorkerData))
    (hotkeys : List String) (blockAtRegistration : List ℤ) (hotkey : String) :
    List String :=
  (alistLookup (reconcile allWorkers hotkeys blockAtRegistration).hotkeysToWorkers
    hotkey).getD []

/-- Every identity resolves at most one worker id in the snapshot (the
situation the duplicate-claim bookkeeping of `get_metrics_timerange`
actually covers). -/
def SingleMatch (allWorkers : List (String × WorkerData))
    (hotkeys : List String) : Prop :=
  ∀ h ∈ hotkeys, (matchWorkerIds allWorkers h).length ≤ 1

/-- Invariant of the mapping loop in the single-match regime: every
resolved entry is a singleton worker set whose worker id points back,
through `worker_ids_to_hotkey_idx`, to the owning hotkey. -/
def ReconInv (hotkeys : List String) (st : ReconState) : Prop :=
  ∀ h ws, alistLookup st.hotkeysToWorkers h = some ws →
    ∃ w j, ws = [w] ∧ alistLookup st.workerIdsToHotkeyIdx w = some j ∧
      hotkeys[j]? = some h

/-! ## WindowManager (`evaluate_miner_share_value`, lines 142-167) -/

/-- The `[start_time, end_time)` computation at the head of
`evaluate_miner_share_value`: cold start (or a timestamp not in the
past) gives one hour, a gap below 30 minutes is widened to 30 minutes,
and the range is capped at 24 hours. -/
def computeWindow (lastEvaluationTimestamp : Option ℤ) (currentTime : ℤ) :
    ℤ × ℤ :=
  let start :=
    match lastEvaluationTimestamp with
    | none => currentTime - 60 * 60
    | some last =>
      if last ≥ currentTime then currentTime - 60 * 60
      else if currentTime - last < 30 * 60 then currentTime - 30 * 60
      else last
  let endTime := currentTime
  let start := if endTime - start > 24 * 60 * 60 then endTime - 24 * 60 * 60 else start
  (start, endTime)

/-! ## ScoreAggregator (`ProxyMetrics.get_share_value_fiat`,
`evaluate_miner_share_value` lines 172-231) -/

/-- `ProxyMetrics.get_share_value_fiat`.  Python raises
`ZeroDivisionError` on float division by zero, so the result is an
`Except`; `DEV_REWARD_FACTOR` is the environment override, `1.0` by
default. -/
def getShareValueFiat (devRewardFactor : ℚ) (m : ProxyMetrics)
    (coinPrice coinDifficulty : ℚ) : Except String ℚ :=
  if m.share_value ≠ 0 then
    if coinDifficulty = 0 then Except.error "ZeroDivisionError"
    else Except.ok (m.share_value / coinDifficulty * (25 / 4) * coinPrice *
      devRewardFactor)
  else Except.ok 0

/-- The price fallback of `evaluate_miner_share_value` (lines 191-199):
a missing or zero price from the price API is replaced by `75.0`. -/
def resolvePrice (priceResult : Option ℚ) : ℚ :=
  match priceResult with
  | none => 75
  | some p => if p = 0 then 75 else p

/-- `hotkey_to_uid = {hotkey: uid for uid, hotkey in enumerate(hotkeys)}`:
dict comprehension, so the last index wins on duplicate hotkeys. -/
def hotkeyToUid (hotkeys : List String) (h : String) : Option ℕ :=
  ((hotkeys.enum.filter (fun p => p.2 = h)).getLast?).map Prod.fst

/-- The per-metric scoring loop of `evaluate_miner_share_value`: skip
metrics whose hotkey is unknown, otherwise add the fiat share value to
`scores[uid]`.  A raised `ZeroDivisionError` stops the loop and keeps
the score mutations already performed. -/
def scoreMetrics (hotkeys : List String)
    (devRewardFactor coinPrice coinDifficulty : ℚ)
    (metrics : List ProxyMetrics) (scores : List ℚ) :
    List ℚ × Option String :=
  match metrics with
  | [] => (scores, none)
  | m :: rest =>
    match hotkeyToUid hotkeys m.hotkey with
    | none => scoreMetrics hotkeys devRewardFactor coinPrice coinDifficulty rest scores
    | some uid =>
      match getShareValueFiat devRewardFactor m coinPrice coinDifficulty with
      | Except.error e => (scores, some e)
      | Except.ok sv =>
        scoreMetrics hotkeys devRewardFactor coinPrice coinDifficulty rest
          (scores.set uid (scores.getD uid 0 + sv))

/-- The external inputs consumed for one coin inside the `try` block:
the pool metrics fetch (which may raise a network error), the price API
result (`None` when unavailable), and the already-resolved network
difficulty (`get_current_difficulty` never raises). -/
structure CoinEnv where
  metricsResult : Except String (List ProxyMetrics)
  priceResult : Option ℚ
  difficulty : ℚ

/-- One iteration of the per-coin loop of `evaluate_miner_share_value`. -/
def processCoin (hotkeys : List String) (devRewardFactor : ℚ)
    (env : CoinEnv) (scores : List ℚ) : List ℚ × Option String :=
  match env.metricsResult with
  | Except.error e => (scores, some e)
  | Except.ok metrics =>
    scoreMetrics hotkeys devRewardFactor (resolvePrice env.priceResult)
      env.difficulty metrics scores

/-- The whole per-coin loop: the first raised exception aborts the
remaining coins, keeping the score mutations made so far. -/
def processCoins (hotkeys : List String) (devRewardFactor : ℚ)
    (envs : List CoinEnv) (scores : List ℚ) : List ℚ × Option String :=
  match envs with
  | [] => (scores, none)
  | env :: rest =>
    match processCoin hotkeys devRewardFactor env scores with
    | (scores', none) => processCoins hotkeys devRewardFactor rest scores'
    | (scores', some e) => (scores', some e)

/-- The mutable validator fields touched by `evaluate_miner_share_value`. -/
structure EvalState where
  scores : List ℚ
  lastEvaluationTimestamp : Option ℤ
  deriving DecidableEq, Repr

/-- `evaluate_miner_share_value`: run the per-coin loop inside `try`;
on success set `last_evaluation_timestamp = current_time` (the window's
end time), on any exception keep the previous timestamp.  The returned
flag records whether the cycle completed without an exception. -/
def evaluateMinerShareValue (hotkeys : List String) (devRewardFactor : ℚ)
    (envs : List CoinEnv) (st : EvalState) (currentTime : ℤ) :
    EvalState × Bool :=
  match processCoins hotkeys devRewardFactor envs st.scores with
  | (scores', none) => (⟨scores', some currentTime⟩, true)
  | (scores', some _) => (⟨scores', st.lastEvaluationTimestamp⟩, false)

/-! ## WeightDistributor (`calculate_weights_distribution` lines 323-350,
`set_weights` lines 434-450) -/

/-- `calculate_weights_distribution`.  `value_to_dist` collapses the
stake/emission inputs the method reads from external collaborators.

Modelled from the spec: the constant `PAYOUT_FACTOR` is imported from
`dogelayer.core.constants`, which is absent from the sources; the spec
calls it "a fixed economic constant", so it is kept as a parameter. -/
def calculateWeightsDistribution (scores : List ℚ) (burnUid : ℕ)
    (payoutFactor valueToDist totalValue : ℚ) : List ℚ :=
  let scaledTotalValue := totalValue * payoutFactor
  let weights :=
    if scaledTotalValue > valueToDist then
      scores.map (fun score => score / scaledTotalValue)
    else
      let weightsToDist := scaledTotalValue / valueToDist
      scores.map (fun score => score / totalValue * weightsToDist)
  let remaining := max 0 (1 - weights.sum)
  if remaining > 0 then
    weights.set burnUid (weights.getD burnUid 0 + remaining)
  else weights

/-- The weight vector built by `set_weights` before submission: all-burn
when the scores sum to zero, otherwise `calculate_weights_distribution`
on the score total. -/
def setWeightsVector (scores : List ℚ) (nHotkeys burnUid : ℕ)
    (payoutFactor valueToDist : ℚ) : List ℚ :=
  if scores.sum = 0 then
    (List.replicate nHotkeys (0 : ℚ)).set burnUid 1
  else
    calculateWeightsDistribution scores burnUid payoutFactor valueToDist
      scores.sum

/-! ## CommitRevealSubmitter (`_set_weights_with_commit_reveal`
lines 478-530) -/

/-- One chain call made by `_set_weights_with_commit_reveal`. -/
inductive ChainAction where
  | commit (uids : List ℕ) (weights : List ℚ) (salt : ℕ)
  | reveal (uids : List ℕ) (weights : List ℚ) (salt : ℕ)
  deriving DecidableEq, Repr

/-- The chain collaborator: `commit_weights` and `reveal_weights`, each
returning `(success, message)`. -/
structure ChainEnv where
  commitResult : List ℕ → List ℚ → ℕ → Bool × String
  revealResult : List ℕ → List ℚ → ℕ → Bool × String

/-- Result of one `_set_weights_with_commit_reveal` call: the returned
`(success, message)` pair, the validator fields after the call, and the
transcript of chain calls made. -/
structure SubmitOutcome where
  success : Bool
  message : String
  scores : List ℚ
  lastUpdate : ℤ
  actions : List ChainAction

/-- `_set_weights_with_commit_reveal`: commit `(uids, weights, salt)`;
on commit failure return immediately; otherwise reveal the same tuple;
on reveal success zero the scores and advance `last_update`, on reveal
failure return the reveal's error leaving both untouched. -/
def setWeightsWithCommitReveal (env : ChainEnv) (salt : ℕ)
    (nHotkeys : ℕ) (weights scores : List ℚ)
    (lastUpdate currentBlock : ℤ) : SubmitOutcome :=
  let uids := List.range nHotkeys
  let commitRes := env.commitResult uids weights salt
  if commitRes.1 = false then
    ⟨false, commitRes.2, scores, lastUpdate,
      [ChainAction.commit uids weights salt]⟩
  else
    let revealRes := env.revealResult uids weights salt
    if revealRes.1 then
      ⟨true, revealRes.2, List.replicate nHotkeys 0, currentBlock,
        [ChainAction.commit uids weights salt,
         ChainAction.reveal uids weights salt]⟩
    else
      ⟨false, revealRes.2, scores, lastUpdate,
        [ChainAction.commit uids weights salt,
         ChainAction.reveal uids weights salt]⟩

/-! ## StateStore restore (`restore_state_and_evaluate` lines 293-318) -/

/-- The exclusion list `BAD_COLDKEYS` of `validator.py`. -/
def BAD_COLDKEYS : List String :=
  ["5CS96ckqKnd2snQ4rQKAvUpMh2pikRmCHb4H7TDzEt2AM9ZB"]

/-- The fields of the persisted state read back by
`restore_state_and_evaluate`. -/
structure StoredState where
  scores : List ℚ
  hotkeys : List String
  blockAtRegistration : List ℤ
  currentBlock : ℤ
  lastEvaluationTimestamp : Option ℤ
  deriving DecidableEq, Repr

/-- The validator fields written by `restore_state_and_evaluate`. -/
structure RestoredFields where
  scores : List ℚ
  hotkeys : List String
  blockAtRegistration : List ℤ
  lastEvaluationTimestamp : Option ℤ
  deriving DecidableEq, Repr

/-- The zeroing loop of `restore_state_and_evaluate`:
`for idx in range(len(self.hotkeys)): if coldkeys[idx] in BAD_COLDKEYS:
scores[idx] = 0.0`. -/
def zeroExcluded (scores : List ℚ) (nHotkeys : ℕ)
    (coldkeys badColdkeys : List String) : List ℚ :=
  (List.range nHotkeys).foldl
    (fun sc idx =>
      if coldkeys.getD idx "" ∈ badColdkeys then sc.set idx 0 else sc)
    scores

/-- `restore_state_and_evaluate` up to the state restoration (the
follow-up evaluation cycle is modelled separately): keep the fresh
fields when no state is stored or when
`current_block - stored_block >= tempo * 1.5`, otherwise restore
scores/hotkeys/registration blocks/timestamp and zero the scores of
excluded coldkeys. -/
def restoreState (stored : Option StoredState) (currentBlock : ℤ)
    (tempo : ℕ) (coldkeys badColdkeys : List String)
    (fresh : RestoredFields) : RestoredFields :=
  match stored with
  | none => fresh
  | some st =>
    let blocksDown := currentBlock - st.currentBlock
    if ((blocksDown : ℚ) ≥ (tempo : ℚ) * (3 / 2)) then fresh
    else
      { scores := zeroExcluded st.scores st.hotkeys.length coldkeys badColdkeys,
        hotkeys := st.hotkeys,
        blockAtRegistration := st.blockAtRegistration,
        lastEvaluationTimestamp := st.lastEvaluationTimestamp }

/-! ## Association-list lemmas -/

theorem alistLookup_insert_self {α : Type} (l : List (String × α))
    (k : String) (v : α) : alistLookup (alistInsert l k v) k = some v := by
  induction l with
  | nil => simp [alistInsert, alistLookup]
  | cons e rest ih =>
    obtain ⟨k', v'⟩ := e
    by_cases h : k' = k
    · simp [alistInsert, alistLookup, h]
    · simp [alistInsert, alistLookup, h, ih]

theorem alistLookup_insert_ne {α : Type} (l : List (String × α))
    (k k' : String) (v : α) (h : k ≠ k') :
    alistLookup (alistInsert l k v) k' = alistLookup l k' := by
  induction l with
  | nil => simp [alistInsert, alistLookup, h]
  | cons e rest ih =>
    obtain ⟨k'', v''⟩ := e
    by_cases h' : k'' = k
    · subst h'
      simp [alistInsert, alistLookup, h]
    · simp [alistInsert, alistLookup, h', ih]

theorem alistLookup_erase_self {α : Type} (l : List (String × α))
    (k : String) : alistLookup (alistErase l k) k = none := by
  induction l with
  | nil => simp [alistErase, alistLookup]
  | cons e rest ih =>
    obtain ⟨k', v'⟩ := e
    by_cases h : k' = k
    · simpa [alistErase, alistLookup, h] using ih
    · simpa [alistErase, alistLookup, List.filter_cons, h] using ih

theorem alistLookup_erase_ne {α : Type} (l : List (String × α))
    (k k' : String) (h : k' ≠ k) :
    alistLookup (alistErase l k) k' = alistLookup l k' := by
  induction l with
  | nil => simp [alistErase, alistLookup]
  | cons e rest ih =>
    obtain ⟨k'', v''⟩ := e
    by_cases h1 : k'' = k
    · subst h1
      have h2 : ¬ k'' = k' := fun e => h (e ▸ rfl)
      simpa [alistErase, alistLookup, List.filter_cons, h2] using ih
    · by_cases h2 : k'' = k'
      · simp [alistErase, alistLookup, List.filter_cons, h1, h2, h]
      · simpa [alistErase, alistLookup, List.filter_cons, h1, h2, h] using ih

/-! ## C1: worker ids are claimed by at most one identity -/

theorem reconStep_inv (allWorkers : List (String × WorkerData))
    (hotkeys : List String) (blocks : List ℤ) (st : ReconState)
    (i : ℕ) (hotkey : String)
    (hget : hotkeys[i]? = some hotkey)
    (hsingle : (matchWorkerIds allWorkers hotkey).length ≤ 1)
    (hinv : ReconInv hotkeys st) :
    ReconInv hotkeys (reconStep allWorkers hotkeys blocks st i hotkey) := by
  by_cases hlen : (matchWorkerIds allWorkers hotkey).length = 1
  · obtain ⟨w, hw⟩ := List.length_eq_one.mp hlen
    cases hlook : alistLookup st.workerIdsToHotkeyIdx w with
    | none =>
      have hred : reconStep allWorkers hotkeys blocks st i hotkey =
          ⟨alistInsert st.hotkeysToWorkers hotkey [w],
           alistInsert st.workerIdsToHotkeyIdx w i⟩ := by
        unfold reconStep
        rw [hw]
        simp only [List.length_singleton, List.headD_cons, hlook]
        norm_num
      rw [hred]
      intro h ws hws
      by_cases hh : h = hotkey
      · subst hh
        rw [alistLookup_insert_self] at hws
        injection hws with hws
        exact ⟨w, i, hws.symm, alistLookup_insert_self _ _ _, hget⟩
      · rw [alistLookup_insert_ne _ _ _ _ (fun e => hh e.symm)] at hws
        obtain ⟨w', j, hws', hlook', hj⟩ := hinv h ws hws
        refine ⟨w', j, hws', ?_, hj⟩
        have hww' : w ≠ w' := by
          intro e
          rw [← e, hlook] at hlook'
          exact Option.noConfusion hlook'
        rw [alistLookup_insert_ne _ _ _ _ hww']
        exact hlook'
    | some otherIdx =>
      by_cases hblk : blocks.getD i 0 < blocks.getD otherIdx 0
      · have hred : reconStep allWorkers hotkeys blocks st i hotkey =
            ⟨alistInsert (alistErase st.hotkeysToWorkers (hotkeys.getD otherIdx ""))
               hotkey [w],
             alistInsert st.workerIdsToHotkeyIdx w i⟩ := by
          unfold reconStep
          rw [hw]
          simp only [List.length_singleton, List.headD_cons, hlook, hblk, if_true]
          norm_num
        rw [hred]
        intro h ws hws
        by_cases hh : h = hotkey
        · subst hh
          rw [alistLookup_insert_self] at hws
          injection hws with hws
          exact ⟨w, i, hws.symm, alistLookup_insert_self _ _ _, hget⟩
        · rw [alistLookup_insert_ne _ _ _ _ (fun e => hh e.symm)] at hws
          by_cases hother : h = hotkeys.getD otherIdx ""
          · rw [hother, alistLookup_erase_self] at hws
            exact Option.noConfusion hws
          · rw [alistLookup_erase_ne _ _ _ hother] at hws
            obtain ⟨w', j, hws', hlook', hj⟩ := hinv h ws hws
            refine ⟨w', j, hws', ?_, hj⟩
            have hww' : w ≠ w' := by
              intro e
              rw [← e, hlook] at hlook'
              injection hlook' with he
              subst he
              apply hother
              rw [List.getD_eq_getElem?_getD, hj]
              rfl
            rw [alistLookup_insert_ne _ _ _ _ hww']
            exact hlook'
      · have hred : reconStep allWorkers hotkeys blocks st i hotkey = st := by
          unfold reconStep
          rw [hw]
          simp only [List.length_singleton, List.headD_cons, hlook, hblk, if_false]
          norm_num
        rw [hred]
        exact hinv
  · have hred : reconStep allWorkers hotkeys blocks st i hotkey = st := by
      unfold reconStep
      have hlen1 : ¬ (matchWorkerIds allWorkers hotkey).length > 1 := by omega
      rw [if_neg hlen1, if_neg hlen]
    rw [hred]
    exact hinv

theorem reconcile_inv (allWorkers : List (String × WorkerData))
    (hotkeys : List String) (blocks : List ℤ)
    (hsingle : SingleMatch allWorkers hotkeys) :
    ReconInv hotkeys (reconcile allWorkers hotkeys blocks) := by
  have main : ∀ (L : List (ℕ × String)) (st : ReconState),
      (∀ p ∈ L, hotkeys[p.1]? = some p.2) → ReconInv hotkeys st →
      ReconInv hotkeys
        (L.foldl (fun st p => reconStep allWorkers hotkeys blocks st p.1 p.2) st) := by
    intro L
    induction L with
    | nil => intro st _ hst; exact hst
    | cons p rest ih =>
      intro st hL hst
      simp only [List.foldl_cons]
      refine ih _ (fun q hq => hL q (List.mem_cons_of_mem _ hq)) ?_
      have hp := hL p (List.mem_cons_self _ _)
      exact reconStep_inv allWorkers hotkeys blocks st p.1 p.2 hp
        (hsingle p.2 (List.getElem?_mem hp)) hst
  refine main _ _ (fun p hp => ?_) ?_
  · exact List.mem_enum_iff_getElem?.mp hp
  · intro h ws hws
    simp [alistLookup] at hws

/-- C1 (amended): in the single-match regime every worker id is claimed
by at most one identity. -/
theorem worker_claimed_at_most_once (allWorkers : List (String × WorkerData))
    (hotkeys : List String) (blocks : List ℤ)
    (hsingle : SingleMatch allWorkers hotkeys)
    (h1 h2 : String) (hne : h1 ≠ h2) (w : String)
    (hmem : w ∈ resolvedWorkers allWorkers hotkeys blocks h1) :
    w ∉ resolvedWorkers allWorkers hotkeys blocks h2 := by
  intro hmem2
  have hinv := reconcile_inv allWorkers hotkeys blocks hsingle
  unfold resolvedWorkers at hmem hmem2
  cases hl1 : alistLookup (reconcile allWorkers hotkeys blocks).hotkeysToWorkers h1 with
  | none => rw [hl1] at hmem; simp at hmem
  | some ws1 =>
    cases hl2 : alistLookup (reconcile allWorkers hotkeys blocks).hotkeysToWorkers h2 with
    | none => rw [hl2] at hmem2; simp at hmem2
    | some ws2 =>
      rw [hl1] at hmem; rw [hl2] at hmem2
      simp only [Option.getD_some] at hmem hmem2
      obtain ⟨w1, j1, he1, hk1, hj1⟩ := hinv h1 ws1 hl1
      obtain ⟨w2, j2, he2, hk2, hj2⟩ := hinv h2 ws2 hl2
      subst he1; subst he2
      simp only [List.mem_singleton] at hmem hmem2
      subst hmem; subst hmem2
      rw [hk1] at hk2
      injection hk2 with hj
      subst hj
      rw [hj1] at hj2
      injection hj2 with hh
      exact hne hh

/-- C1 counterexample: with workers `"a.b"` and `"a.c"` and identities
`"a"` and `"a.b"`, the multi-rig path stores `["a.b", "a.c"]` for `"a"`
without recording any claim, and `"a.b"` then also claims worker
`"a.b"`, so worker id `"a.b"` is counted toward two identities. -/
theorem C1_counterexample :
    "a.b" ∈ resolvedWorkers [("a.b", {}), ("a.c", {})] ["a", "a.b"] [0, 0] "a" ∧
    "a.b" ∈ resolvedWorkers [("a.b", {}), ("a.c", {})] ["a", "a.b"] [0, 0] "a.b" ∧
    ("a" : String) ≠ "a.b" := by decide

/-- Witness for the amended C1 at a concrete input. -/
theorem worker_claimed_at_most_once_witness :
    "x" ∉ resolvedWorkers [("x", {})] ["x", "y"] [0, 0] "y" :=
  worker_claimed_at_most_once [("x", {})] ["x", "y"] [0, 0]
    (by unfold SingleMatch; decide) "x" "y" (by decide) "x" (by decide)

/-! ## C2: duplicate worker resolution by registration block -/

theorem reconcile_pair (allWorkers : List (String × WorkerData))
    (h1 h2 w : String) (b1 b2 : ℤ)
    (hm1 : matchWorkerIds allWorkers h1 = [w])
    (hm2 : matchWorkerIds allWorkers h2 = [w]) :
    reconcile allWorkers [h1, h2] [b1, b2] =
      if b2 < b1 then ⟨[(h2, [w])], [(w, 1)]⟩
      else ⟨[(h1, [w])], [(w, 0)]⟩ := by
  have henum : ([h1, h2] : List String).enum = [(0, h1), (1, h2)] := rfl
  unfold reconcile
  rw [henum]
  simp only [List.foldl_cons, List.foldl_nil]
  have hstep1 : reconStep allWorkers [h1, h2] [b1, b2] ⟨[], []⟩ 0 h1 =
      ⟨[(h1, [w])], [(w, 0)]⟩ := by
    unfold reconStep
    rw [hm1]
    simp [alistLookup, alistInsert]
  rw [hstep1]
  unfold reconStep
  rw [hm2]
  simp only [List.length_singleton, List.headD_cons, gt_iff_lt, lt_self_iff_false,
    if_false]
  have hlw : alistLookup [(w, (0 : ℕ))] w = some 0 := by simp [alistLookup]
  rw [hlw]
  simp only [List.getD_cons_succ, List.getD_cons_zero]
  by_cases hb : b2 < b1
  · rw [if_pos hb, if_pos hb]
    simp [alistErase, alistInsert, alistLookup]
  · rw [if_neg hb, if_neg hb]
    simp

/-- C2: when two identities both resolve to the same single worker id,
the one with the strictly smaller registration block holds the claim and
the other gets no mapping, in either processing order; on equal blocks
the identity processed first keeps the claim. -/
theorem registration_block_resolution (allWorkers : List (String × WorkerData))
    (hA hB w : String) (bA bB : ℤ) (hne : hA ≠ hB)
    (hmA : matchWorkerIds allWorkers hA = [w])
    (hmB : matchWorkerIds allWorkers hB = [w]) :
    (bA < bB →
      resolvedWorkers allWorkers [hA, hB] [bA, bB] hA = [w] ∧
      resolvedWorkers allWorkers [hA, hB] [bA, bB] hB = [] ∧
      resolvedWorkers allWorkers [hB, hA] [bB, bA] hA = [w] ∧
      resolvedWorkers allWorkers [hB, hA] [bB, bA] hB = []) ∧
    (bA = bB →
      resolvedWorkers allWorkers [hA, hB] [bA, bB] hA = [w] ∧
      resolvedWorkers allWorkers [hA, hB] [bA, bB] hB = [] ∧
      resolvedWorkers allWorkers [hB, hA] [bB, bA] hB = [w] ∧
      resolvedWorkers allWorkers [hB, hA] [bB, bA] hA = []) := by
  have hAB := reconcile_pair allWorkers hA hB w bA bB hmA hmB
  have hBA := reconcile_pair allWorkers hB hA w bB bA hmB hmA
  have hne' : ¬ hB = hA := fun e => hne e.symm
  constructor
  · intro hlt
    have h1 : ¬ bB < bA := by omega
    rw [if_neg h1] at hAB
    rw [if_pos hlt] at hBA
    unfold resolvedWorkers
    rw [hAB, hBA]
    simp [alistLookup, hne, hne']
  · intro heq
    have h1 : ¬ bB < bA := by omega
    have h2 : ¬ bA < bB := by omega
    rw [if_neg h1] at hAB
    rw [if_neg h2] at hBA
    unfold resolvedWorkers
    rw [hAB, hBA]
    simp [alistLookup, hne, hne']

/-- Witness for C2 at a concrete input: identities `"a"` and `"a.b"`
both resolve the single worker `"a.b"`; registration blocks 1 < 2. -/
theorem registration_block_resolution_witness :
    resolvedWorkers [("a.b", {})] ["a", "a.b"] [1, 2] "a" = ["a.b"] ∧
    resolvedWorkers [("a.b", {})] ["a", "a.b"] [1, 2] "a.b" = [] ∧
    resolvedWorkers [("a.b", {})] ["a.b", "a"] [2, 1] "a" = ["a.b"] ∧
    resolvedWorkers [("a.b", {})] ["a.b", "a"] [2, 1] "a.b" = [] :=
  (registration_block_resolution [("a.b", {})] "a" "a.b" "a.b" 1 2
    (by decide) (by decide) (by decide)).1 (by decide)

/-! ## C10: multi-rig aggregation sums share values -/

/-- C10: with workers `"idA.rig1"` and `"idA.rig2"` each reporting
share value 5, the aggregated metric for identity `"idA"` has share
value 10. -/
theorem multi_rig_aggregation :
    (getMetricsTimerange
        [("idA.rig1", { share_value := 5 }), ("idA.rig2", { share_value := 5 })]
        ["idA"] [0]).map
      (fun m => (m.hotkey, m.share_value)) = [("idA", 10)] := by
  have h : reconcile
      [("idA.rig1", { share_value := 5 }), ("idA.rig2", { share_value := 5 })]
      ["idA"] [0] = ⟨[("idA", ["idA.rig1", "idA.rig2"])], []⟩ := by decide
  unfold getMetricsTimerange
  rw [h]
  simp [aggregateWorkers, alistLookup]
  norm_num

/-! ## C4: window bounds -/

/-- C4: the evaluation window `[start_time, end_time)` is never wider
than 24 hours and never narrower than 30 minutes, and is exactly one
hour when no prior evaluation timestamp exists. -/
theorem window_bounds (lastEvaluationTimestamp : Option ℤ) (currentTime : ℤ) :
    30 * 60 ≤ (computeWindow lastEvaluationTimestamp currentTime).2 -
        (computeWindow lastEvaluationTimestamp currentTime).1 ∧
    (computeWindow lastEvaluationTimestamp currentTime).2 -
        (computeWindow lastEvaluationTimestamp currentTime).1 ≤ 24 * 60 * 60 ∧
    (lastEvaluationTimestamp = none →
      (computeWindow lastEvaluationTimestamp currentTime).2 -
        (computeWindow lastEvaluationTimestamp currentTime).1 = 60 * 60) := by
  unfold computeWindow
  cases lastEvaluationTimestamp with
  | none =>
    refine ⟨?_, ?_, fun _ => ?_⟩ <;> (dsimp only; split_ifs <;> omega)
  | some last =>
    refine ⟨?_, ?_, fun h => Option.noConfusion h⟩ <;>
      (dsimp only; split_ifs <;> omega)

/-- Witness for C4 at a concrete cold-start input. -/
theorem window_bounds_witness :
    (computeWindow none 1000).2 - (computeWindow none 1000).1 = 60 * 60 :=
  (window_bounds none 1000).2.2 rfl

/-! ## C5: the evaluation timestamp advances exactly on success -/

/-- C5: `evaluate_miner_share_value` sets the last-evaluation timestamp
to the window's end time exactly when the per-coin loop raised no
exception; any raised fetch or scoring error leaves the previous
timestamp in place. -/
theorem eval_timestamp_semantics (hotkeys : List String) (devRewardFactor : ℚ)
    (envs : List CoinEnv) (st : EvalState) (currentTime : ℤ) :
    ((evaluateMinerShareValue hotkeys devRewardFactor envs st currentTime).1.lastEvaluationTimestamp =
      if (evaluateMinerShareValue hotkeys devRewardFactor envs st currentTime).2 then
        some currentTime
      else st.lastEvaluationTimestamp) ∧
    ((evaluateMinerShareValue hotkeys devRewardFactor envs st currentTime).2 = true ↔
      (processCoins hotkeys devRewardFactor envs st.scores).2 = none) := by
  unfold evaluateMinerShareValue
  rcases h : processCoins hotkeys devRewardFactor envs st.scores with ⟨scores', err⟩
  cases err <;> simp

/-! ## C6: fiat conversion formula -/

/-- C6: with the default reward factor, a metric with non-zero raw share
value and non-zero difficulty scores
`(share_value / difficulty) * 6.25 * price`, and a zero raw share value
scores exactly 0 with no error raised. -/
theorem fiat_conversion (m : ProxyMetrics) (coinPrice coinDifficulty : ℚ) :
    (m.share_value ≠ 0 → coinDifficulty ≠ 0 →
      getShareValueFiat 1 m coinPrice coinDifficulty =
        Except.ok (m.share_value / coinDifficulty * (25 / 4) * coinPrice)) ∧
    (m.share_value = 0 →
      getShareValueFiat 1 m coinPrice coinDifficulty = Except.ok 0) := by
  constructor
  · intro hsv hdiff
    unfold getShareValueFiat
    rw [if_pos hsv, if_neg hdiff, mul_one]
  · intro hsv
    unfold getShareValueFiat
    rw [if_neg (by simp [hsv])]

/-- Witness for C6 at concrete inputs. -/
theorem fiat_conversion_witness :
    getShareValueFiat 1 { hotkey := "h", share_value := 5 } 3 2 =
      Except.ok ((5 : ℚ) / 2 * (25 / 4) * 3) ∧
    getShareValueFiat 1 { hotkey := "h" } 3 2 = Except.ok 0 :=
  ⟨(fiat_conversion { hotkey := "h", share_value := 5 } 3 2).1
      (by norm_num) (by norm_num),
   (fiat_conversion { hotkey := "h" } 3 2).2 rfl⟩

/-! ## C3: weight distribution sums to one and is non-negative -/

theorem sum_map_div (l : List ℚ) (c : ℚ) :
    (l.map (fun s => s / c)).sum = l.sum / c := by
  induction l with
  | nil => simp
  | cons a tl ih => simp [ih, add_div]

theorem sum_map_div_mul (l : List ℚ) (c d : ℚ) :
    (l.map (fun s => s / c * d)).sum = l.sum / c * d := by
  induction l with
  | nil => simp
  | cons a tl ih => simp [ih, add_div, add_mul]

theorem sum_set_add (l : List ℚ) (i : ℕ) (r : ℚ) (h : i < l.length) :
    (l.set i (l.getD i 0 + r)).sum = l.sum + r := by
  induction l generalizing i with
  | nil => simp at h
  | cons a tl ih =>
    cases i with
    | zero =>
      simp only [List.set_cons_zero, List.getD_cons_zero, List.sum_cons]
      ring
    | succ n =>
      simp only [List.set_cons_succ, List.getD_cons_succ, List.sum_cons]
      rw [ih n (by simpa using h)]
      ring

/-- The final burn-adjustment step of `calculate_weights_distribution`:
starting from non-negative weights summing to at most one, the result
sums to exactly one and stays non-negative. -/
theorem burn_adjust (weights : List ℚ) (burnUid : ℕ)
    (hnn : ∀ x ∈ weights, 0 ≤ x) (hle : weights.sum ≤ 1)
    (hburn : burnUid < weights.length) :
    (if max 0 (1 - weights.sum) > 0 then
        weights.set burnUid (weights.getD burnUid 0 + max 0 (1 - weights.sum))
      else weights).sum = 1 ∧
    ∀ x ∈ (if max 0 (1 - weights.sum) > 0 then
        weights.set burnUid (weights.getD burnUid 0 + max 0 (1 - weights.sum))
      else weights), 0 ≤ x := by
  by_cases hr : max 0 (1 - weights.sum) > 0
  · have h1 : (0 : ℚ) < 1 - weights.sum := by
      by_contra hc
      push_neg at hc
      rw [max_eq_left hc] at hr
      exact lt_irrefl 0 hr
    have hmax : max 0 (1 - weights.sum) = 1 - weights.sum :=
      max_eq_right (le_of_lt h1)
    rw [if_pos hr]
    constructor
    · rw [sum_set_add _ _ _ hburn, hmax]
      ring
    · intro x hx
      rcases List.mem_or_eq_of_mem_set hx with h | h
      · exact hnn x h
      · subst h
        have hg : 0 ≤ weights.getD burnUid 0 := by
          rw [List.getD_eq_getElem?_getD, List.getElem?_eq_getElem hburn]
          exact hnn _ (List.getElem_mem hburn)
        exact add_nonneg hg (le_of_lt hr)
  · rw [if_neg hr]
    push_neg at hr
    have h1 : 1 - weights.sum ≤ 0 := le_trans (le_max_right 0 _) hr
    exact ⟨le_antisymm hle (by linarith), hnn⟩

/-- C3: for every non-negative score vector (including all-zero), the
weight vector built for submission sums to exactly 1 and has no
negative entry after the burn adjustment, provided the payout factor is
at least 1 and the burn index is in range. -/
theorem weights_sum_one_nonneg (scores : List ℚ) (nHotkeys burnUid : ℕ)
    (payoutFactor valueToDist : ℚ)
    (hnn : ∀ s ∈ scores, 0 ≤ s)
    (hpf : 1 ≤ payoutFactor)
    (hburn : burnUid < scores.length)
    (hlen : nHotkeys = scores.length) :
    (setWeightsVector scores nHotkeys burnUid payoutFactor valueToDist).sum = 1 ∧
    ∀ wgt ∈ setWeightsVector scores nHotkeys burnUid payoutFactor valueToDist,
      0 ≤ wgt := by
  unfold setWeightsVector
  by_cases hz : scores.sum = 0
  · rw [if_pos hz]
    have hlt : burnUid < (List.replicate nHotkeys (0 : ℚ)).length := by
      simpa [hlen] using hburn
    have hgetD : (List.replicate nHotkeys (0 : ℚ)).getD burnUid 0 = 0 := by
      rw [List.getD_eq_getElem?_getD, List.getElem?_replicate]
      split <;> rfl
    constructor
    · have hset := sum_set_add (List.replicate nHotkeys (0 : ℚ)) burnUid 1 hlt
      rw [hgetD, zero_add] at hset
      rw [hset]
      simp [List.sum_replicate]
    · intro x hx
      rcases List.mem_or_eq_of_mem_set hx with h | h
      · rw [List.eq_of_mem_replicate h]
      · rw [h]
        exact zero_le_one
  · rw [if_neg hz]
    have htot : 0 < scores.sum :=
      lt_of_le_of_ne (List.sum_nonneg hnn) (Ne.symm hz)
    have hpf0 : 0 < payoutFactor := lt_of_lt_of_le one_pos hpf
    have hscaled : 0 < scores.sum * payoutFactor := mul_pos htot hpf0
    unfold calculateWeightsDistribution
    by_cases hb : scores.sum * payoutFactor > valueToDist
    · simp only [if_pos hb]
      have hsum : (scores.map (fun s => s / (scores.sum * payoutFactor))).sum =
          1 / payoutFactor := by
        rw [sum_map_div, div_mul_eq_div_div, div_self hz]
      refine burn_adjust _ burnUid ?_ ?_ ?_
      · intro x hx
        obtain ⟨s, hs, rfl⟩ := List.mem_map.mp hx
        exact div_nonneg (hnn s hs) (le_of_lt hscaled)
      · rw [hsum]
        exact (div_le_one hpf0).mpr hpf
      · simpa using hburn
    · simp only [if_neg hb]
      push_neg at hb
      have hvd : 0 < valueToDist := lt_of_lt_of_le hscaled hb
      have hwtd0 : 0 ≤ scores.sum * payoutFactor / valueToDist :=
        div_nonneg (le_of_lt hscaled) (le_of_lt hvd)
      have hsum : (scores.map
          (fun s => s / scores.sum * (scores.sum * payoutFactor / valueToDist))).sum =
          scores.sum * payoutFactor / valueToDist := by
        rw [sum_map_div_mul, div_self hz, one_mul]
      refine burn_adjust _ burnUid ?_ ?_ ?_
      · intro x hx
        obtain ⟨s, hs, rfl⟩ := List.mem_map.mp hx
        exact mul_nonneg (div_nonneg (hnn s hs) (le_of_lt htot)) hwtd0
      · rw [hsum]
        exact (div_le_one hvd).mpr hb
      · simpa using hburn

/-- Witness for C3 at the spec's concrete scenario: scores `[10, 0, 30]`,
burn index 1, budget exceeding the scaled total. -/
theorem weights_sum_one_nonneg_witness :
    (setWeightsVector [10, 0, 30] 3 1 2 100).sum = 1 ∧
    ∀ wgt ∈ setWeightsVector [10, 0, 30] 3 1 2 100, 0 ≤ wgt :=
  weights_sum_one_nonneg [10, 0, 30] 3 1 2 100
    (by norm_num) (by norm_num) (by norm_num) (by norm_num)

/-! ## C7: zero price is substituted, zero difficulty is not total -/

/-- C7 counterexample: a zero network difficulty fed into scoring with a
non-zero raw share value raises `ZeroDivisionError`
(`share_value / coin_difficulty` in Python), and the evaluation cycle
for that coin aborts. -/
theorem C7_counterexample :
    getShareValueFiat 1 { hotkey := "m", share_value := 1 } 75 0 =
      Except.error "ZeroDivisionError" ∧
    (evaluateMinerShareValue ["m"] 1
        [⟨Except.ok [{ hotkey := "m", share_value := 1 }], some 75, 0⟩]
        ⟨[0], some 50⟩ 100).2 = false := by
  have hfiat : getShareValueFiat 1 { hotkey := "m", share_value := 1 } 75 0 =
      Except.error "ZeroDivisionError" := by
    norm_num [getShareValueFiat]
  have huid : hotkeyToUid ["m"] "m" = some 0 := by decide
  refine ⟨hfiat, ?_⟩
  norm_num [evaluateMinerShareValue, processCoins, processCoin, scoreMetrics,
    resolvePrice, huid, hfiat]

/-- C7 (amended): a missing or zero price is replaced by the fallback
75.0 and the cycle continues, and the fiat conversion is total whenever
the difficulty is non-zero; a zero difficulty with non-zero share value
is the one faulting case. -/
theorem price_fallback_and_fiat_totality :
    (resolvePrice none = 75 ∧ resolvePrice (some 0) = 75 ∧
      ∀ p : ℚ, p ≠ 0 → resolvePrice (some p) = p) ∧
    (∀ (devRewardFactor : ℚ) (m : ProxyMetrics) (coinPrice coinDifficulty : ℚ),
      coinDifficulty ≠ 0 →
      ∃ v, getShareValueFiat devRewardFactor m coinPrice coinDifficulty =
        Except.ok v) := by
  refine ⟨⟨rfl, by norm_num [resolvePrice], fun p hp => by simp [resolvePrice, hp]⟩, ?_⟩
  intro devRewardFactor m coinPrice coinDifficulty hdiff
  unfold getShareValueFiat
  by_cases hsv : m.share_value ≠ 0
  · rw [if_pos hsv, if_neg hdiff]
    exact ⟨_, rfl⟩
  · rw [if_neg hsv]
    exact ⟨0, rfl⟩

/-- Witness for the amended C7 at concrete inputs. -/
theorem price_fallback_and_fiat_totality_witness :
    resolvePrice (some 42) = 42 ∧
    ∃ v, getShareValueFiat 1 { hotkey := "m", share_value := 1 } 75 3 =
      Except.ok v :=
  ⟨price_fallback_and_fiat_totality.1.2.2 42 (by norm_num),
   price_fallback_and_fiat_totality.2 1 { hotkey := "m", share_value := 1 } 75 3
     (by norm_num)⟩

/-! ## C8: commit succeeds, reveal fails -/

/-- C8: when the commit succeeds and the reveal fails, the call returns
failure with the reveal's error message, the scores and last-update
marker are unchanged, and the transcript is exactly one commit followed
by one reveal of the same `(uids, weights, salt)` tuple. -/
theorem commit_reveal_reveal_failure (env : ChainEnv) (salt nHotkeys : ℕ)
    (weights scores : List ℚ) (lastUpdate currentBlock : ℤ)
    (hc : (env.commitResult (List.range nHotkeys) weights salt).1 = true)
    (hr : (env.revealResult (List.range nHotkeys) weights salt).1 = false) :
    (setWeightsWithCommitReveal env salt nHotkeys weights scores lastUpdate
        currentBlock).success = false ∧
    (setWeightsWithCommitReveal env salt nHotkeys weights scores lastUpdate
        currentBlock).message =
      (env.revealResult (List.range nHotkeys) weights salt).2 ∧
    (setWeightsWithCommitReveal env salt nHotkeys weights scores lastUpdate
        currentBlock).scores = scores ∧
    (setWeightsWithCommitReveal env salt nHotkeys weights scores lastUpdate
        currentBlock).lastUpdate = lastUpdate ∧
    (setWeightsWithCommitReveal env salt nHotkeys weights scores lastUpdate
        currentBlock).actions =
      [ChainAction.commit (List.range nHotkeys) weights salt,
       ChainAction.reveal (List.range nHotkeys) weights salt] := by
  unfold setWeightsWithCommitReveal
  simp [hc, hr]

/-- Witness for C8 with a chain stub whose commit succeeds and whose
reveal fails. -/
theorem commit_reveal_reveal_failure_witness :
    (setWeightsWithCommitReveal
        ⟨fun _ _ _ => (true, "ok"), fun _ _ _ => (false, "reveal failed")⟩
        7 2 [1 / 2, 1 / 2] [3, 4] 10 20).success = false ∧
    (setWeightsWithCommitReveal
        ⟨fun _ _ _ => (true, "ok"), fun _ _ _ => (false, "reveal failed")⟩
        7 2 [1 / 2, 1 / 2] [3, 4] 10 20).message = "reveal failed" ∧
    (setWeightsWithCommitReveal
        ⟨fun _ _ _ => (true, "ok"), fun _ _ _ => (false, "reveal failed")⟩
        7 2 [1 / 2, 1 / 2] [3, 4] 10 20).scores = [3, 4] ∧
    (setWeightsWithCommitReveal
        ⟨fun _ _ _ => (true, "ok"), fun _ _ _ => (false, "reveal failed")⟩
        7 2 [1 / 2, 1 / 2] [3, 4] 10 20).lastUpdate = 10 ∧
    (setWeightsWithCommitReveal
        ⟨fun _ _ _ => (true, "ok"), fun _ _ _ => (false, "reveal failed")⟩
        7 2 [1 / 2, 1 / 2] [3, 4] 10 20).actions =
      [ChainAction.commit (List.range 2) [1 / 2, 1 / 2] 7,
       ChainAction.reveal (List.range 2) [1 / 2, 1 / 2] 7] :=
  commit_reveal_reveal_failure
    ⟨fun _ _ _ => (true, "ok"), fun _ _ _ => (false, "reveal failed")⟩
    7 2 [1 / 2, 1 / 2] [3, 4] 10 20 rfl rfl

/-! ## C9: state restore and staleness threshold -/

theorem zeroExcluded_length (scores : List ℚ) (n : ℕ)
    (coldkeys badColdkeys : List String) :
    (zeroExcluded scores n coldkeys badColdkeys).length = scores.length := by
  unfold zeroExcluded
  generalize List.range n = L
  induction L generalizing scores with
  | nil => rfl
  | cons i rest ih =>
    simp only [List.foldl_cons]
    rw [ih]
    split <;> simp

theorem zeroExcluded_getD (scores : List ℚ) (n : ℕ)
    (coldkeys badColdkeys : List String) (idx : ℕ) :
    (zeroExcluded scores n coldkeys badColdkeys).getD idx 0 =
      if idx < n ∧ coldkeys.getD idx "" ∈ badColdkeys then 0
      else scores.getD idx 0 := by
  induction n with
  | zero => simp [zeroExcluded]
  | succ n ih =>
    have hsplit : zeroExcluded scores (n + 1) coldkeys badColdkeys =
        (if coldkeys.getD n "" ∈ badColdkeys then
          (zeroExcluded scores n coldkeys badColdkeys).set n 0
        else zeroExcluded scores n coldkeys badColdkeys) := by
      unfold zeroExcluded
      rw [List.range_succ, List.foldl_append]
      simp
    rw [hsplit]
    by_cases hmem : coldkeys.getD n "" ∈ badColdkeys
    · rw [if_pos hmem]
      by_cases hidx : idx = n
      · subst hidx
        rw [List.getD_eq_getElem?_getD, List.getElem?_set, if_pos rfl,
          if_pos (show idx < idx + 1 ∧ coldkeys.getD idx "" ∈ badColdkeys from
            ⟨by omega, hmem⟩)]
        split <;> rfl
      · rw [List.getD_eq_getElem?_getD,
          List.getElem?_set_ne (fun e => hidx e.symm),
          ← List.getD_eq_getElem?_getD, ih]
        have : (idx < n + 1 ∧ coldkeys.getD idx "" ∈ badColdkeys) ↔
            (idx < n ∧ coldkeys.getD idx "" ∈ badColdkeys) := by
          constructor
          · rintro ⟨h1, h2⟩; exact ⟨by omega, h2⟩
          · rintro ⟨h1, h2⟩; exact ⟨by omega, h2⟩
        rw [if_congr this rfl rfl]
    · rw [if_neg hmem, ih]
      by_cases hidx : idx = n
      · subst hidx
        rw [if_neg (fun h => hmem h.2), if_neg (fun h => hmem h.2)]
      · have : (idx < n + 1 ∧ coldkeys.getD idx "" ∈ badColdkeys) ↔
            (idx < n ∧ coldkeys.getD idx "" ∈ badColdkeys) := by
          constructor
          · rintro ⟨h1, h2⟩; exact ⟨by omega, h2⟩
          · rintro ⟨h1, h2⟩; exact ⟨by omega, h2⟩
        rw [if_congr this rfl rfl]

/-- C9 counterexample: with tempo 2 the staleness cutoff is 3 blocks;
at a gap of exactly 3 the gap does not exceed `1.5 × tempo`, yet the
code discards the stored state (`>=`, not `>`), so the stored scores
are not restored. -/
theorem C9_counterexample :
    (restoreState (some ⟨[5], ["h"], [1], 0, some 42⟩) 3 2 [] []
        ⟨[], [], [], none⟩).scores = [] ∧
    ¬ ((3 : ℚ) - 0 > (2 : ℚ) * (3 / 2)) ∧
    ([5] : List ℚ) ≠ [] := by
  refine ⟨?_, by norm_num, by simp⟩
  norm_num [restoreState]

/-- C9 (amended): the stored state is discarded exactly when the block
gap is at least (rather than strictly more than) `1.5 × tempo`;
otherwise hotkeys, registration blocks and the evaluation timestamp are
restored verbatim, and each score is restored verbatim unless its index
has an excluded coldkey, in which case it is zeroed. -/
theorem restore_state_behavior (st : StoredState) (currentBlock : ℤ)
    (tempo : ℕ) (coldkeys badColdkeys : List String)
    (fresh : RestoredFields) :
    (((currentBlock - st.currentBlock : ℤ) : ℚ) ≥ (tempo : ℚ) * (3 / 2) →
      restoreState (some st) currentBlock tempo coldkeys badColdkeys fresh =
        fresh) ∧
    (¬ (((currentBlock - st.currentBlock : ℤ) : ℚ) ≥ (tempo : ℚ) * (3 / 2)) →
      (restoreState (some st) currentBlock tempo coldkeys badColdkeys
          fresh).hotkeys = st.hotkeys ∧
      (restoreState (some st) currentBlock tempo coldkeys badColdkeys
          fresh).blockAtRegistration = st.blockAtRegistration ∧
      (restoreState (some st) currentBlock tempo coldkeys badColdkeys
          fresh).lastEvaluationTimestamp = st.lastEvaluationTimestamp ∧
      ∀ idx : ℕ,
        (restoreState (some st) currentBlock tempo coldkeys badColdkeys
            fresh).scores.getD idx 0 =
          if idx < st.hotkeys.length ∧ coldkeys.getD idx "" ∈ badColdkeys then 0
          else st.scores.getD idx 0) := by
  constructor
  · intro hge
    show (if ((currentBlock - st.currentBlock : ℤ) : ℚ) ≥ (tempo : ℚ) * (3 / 2)
        then fresh else _) = fresh
    rw [if_pos hge]
  · intro hlt
    have hred : restoreState (some st) currentBlock tempo coldkeys badColdkeys
        fresh =
        { scores := zeroExcluded st.scores st.hotkeys.length coldkeys badColdkeys,
          hotkeys := st.hotkeys,
          blockAtRegistration := st.blockAtRegistration,
          lastEvaluationTimestamp := st.lastEvaluationTimestamp } := by
      show (if ((currentBlock - st.currentBlock : ℤ) : ℚ) ≥ (tempo : ℚ) * (3 / 2)
          then fresh else _) = _
      rw [if_neg hlt]
    rw [hred]
    exact ⟨rfl, rfl, rfl, fun idx => zeroExcluded_getD _ _ _ _ idx⟩

/-- Witness for the amended C9: a gap of 3 blocks with tempo 2 discards;
a gap of 2 blocks restores, zeroing the excluded second identity. -/
theorem restore_state_behavior_witness :
    restoreState (some ⟨[5, 7], ["h1", "h2"], [1, 2], 0, some 42⟩) 3 2
        ["good", "bad"] ["bad"] ⟨[], [], [], none⟩ = ⟨[], [], [], none⟩ ∧
    (restoreState (some ⟨[5, 7], ["h1", "h2"], [1, 2], 0, some 42⟩) 2 2
        ["good", "bad"] ["bad"] ⟨[], [], [], none⟩).hotkeys = ["h1", "h2"] ∧
    (restoreState (some ⟨[5, 7], ["h1", "h2"], [1, 2], 0, some 42⟩) 2 2
        ["good", "bad"] ["bad"] ⟨[], [], [], none⟩).scores.getD 0 0 = 5 ∧
    (restoreState (some ⟨[5, 7], ["h1", "h2"], [1, 2], 0, some 42⟩) 2 2
        ["good", "bad"] ["bad"] ⟨[], [], [], none⟩).scores.getD 1 0 = 0 := by
  refine ⟨(restore_state_behavior ⟨[5, 7], ["h1", "h2"], [1, 2], 0, some 42⟩ 3 2
      ["good", "bad"] ["bad"] ⟨[], [], [], none⟩).1 (by norm_num), ?_, ?_, ?_⟩
  · exact ((restore_state_behavior ⟨[5, 7], ["h1", "h2"], [1, 2], 0, some 42⟩ 2 2
      ["good", "bad"] ["bad"] ⟨[], [], [], none⟩).2 (by norm_num)).1
  · rw [((restore_state_behavior ⟨[5, 7], ["h1", "h2"], [1, 2], 0, some 42⟩ 2 2
      ["good", "bad"] ["bad"] ⟨[], [], [], none⟩).2 (by norm_num)).2.2.2 0]
    rw [if_neg (by decide)]
    rfl
  · rw [((restore_state_behavior ⟨[5, 7], ["h1", "h2"], [1, 2], 0, some 42⟩ 2 2
      ["good", "bad"] ["bad"] ⟨[], [], [], none⟩).2 (by norm_num)).2.2.2 1]
    rw [if_pos (by decide)]

end Dogelayer
